import Mathlib

/-!
Shallow embedding of the card data store, sanitizer, parser, markup
transformer and shuffle of `src/app.js` (word-list-exporter), together
with proofs about the behaviour its specification describes.

Strings are modelled as lists of Unicode characters (`Str`).  JavaScript
string operations used by the source (`trim`, `split`, `substring`,
`replace` of a character class, `splice`) are reproduced on that model.
Random/unique sources (`Math.random`, `generateUniqueId`) are modelled as
explicit streams passed to the functions that consume them.
-/

namespace WordList

abbrev Str := List Char

/-- The JavaScript whitespace class (what `String.prototype.trim` and `\s`
strip): tab, LF, VT, FF, CR, space, NBSP, BOM, and the Unicode space
separators plus the line/paragraph separators. -/
def jsIsWhitespace (c : Char) : Bool :=
  c.toNat = 0x09 || c.toNat = 0x0A || c.toNat = 0x0B || c.toNat = 0x0C ||
  c.toNat = 0x0D || c.toNat = 0x20 || c.toNat = 0xA0 || c.toNat = 0x1680 ||
  (0x2000 ≤ c.toNat && c.toNat ≤ 0x200A) || c.toNat = 0x2028 ||
  c.toNat = 0x2029 || c.toNat = 0x202F || c.toNat = 0x205F ||
  c.toNat = 0x3000 || c.toNat = 0xFEFF

/-- The character class `[\x00-\x1F\x7F]` removed by `sanitizeInput`. -/
def jsIsControl (c : Char) : Bool :=
  c.toNat ≤ 0x1F || c.toNat = 0x7F

/-- Remove the trailing run of characters satisfying `p`. -/
def dropTrailing (p : Char → Bool) (l : Str) : Str :=
  (l.reverse.dropWhile p).reverse

/-- JavaScript `String.prototype.trim`. -/
def jsTrim (l : Str) : Str :=
  dropTrailing jsIsWhitespace (l.dropWhile jsIsWhitespace)

/-- `sanitizeInput(text, maxLength)` from `src/app.js` lines 231-237:
empty (falsy) input yields the empty string; otherwise the control
characters `[\x00-\x1F\x7F]` are removed, the result is trimmed, and
then truncated to `maxLength` characters. -/
def sanitizeInput (text : Str) (maxLength : Nat) : Str :=
  if text = [] then []
  else (jsTrim (text.filter (fun c => !jsIsControl c))).take maxLength

/-- The separator class `[→:：\-－]` of `parseTextToCards`. -/
def isSeparator (c : Char) : Bool :=
  c = '→' || c = ':' || c = '：' || c = '-' || c = '－'

/-- JavaScript `String.prototype.split` on a one-character-class regex
without `+` (each matching character is its own delimiter), as in
`line.split(/[→:：\-－]/)` or `text.split('\n')`: every delimiter
character is a boundary, and empty pieces are kept. -/
def splitOnPred (p : Char → Bool) : Str → List Str
  | [] => [[]]
  | c :: rest =>
    if p c then [] :: splitOnPred p rest
    else
      match splitOnPred p rest with
      | [] => [[c]]
      | h :: t => (c :: h) :: t

/-- JavaScript `String.prototype.split` on a one-character-class regex
with `+` (a maximal run of matching characters is one delimiter), as in
`line.split(/[\s\t]+/)`.  Leading/trailing delimiter runs produce empty
pieces, exactly as in JavaScript. -/
def splitOnRuns (p : Char → Bool) : Str → List Str
  | [] => [[]]
  | [c] => if p c then [[], []] else [[c]]
  | c :: d :: rest2 =>
    if p c then
      if p d then splitOnRuns p (d :: rest2)
      else [] :: splitOnRuns p (d :: rest2)
    else
      match splitOnRuns p (d :: rest2) with
      | [] => [[c]]
      | h :: t => (c :: h) :: t

/-- A card as produced by the parser / stored by the card store. -/
structure Card where
  id : Str
  category : Str
  question : Str
  answer : Str
deriving DecidableEq, Repr

/-- A concrete identifier stream used for witnesses: injective and
producing only non-empty identifiers. -/
def demoSupply (n : Nat) : Str := List.replicate (n + 1) 'x'

/-- A concrete card (id `"a"`) for witnesses. -/
def cardA : Card := { id := "a".toList, category := [], question := [], answer := [] }

/-- A concrete card (id `"b"`) for witnesses. -/
def cardB : Card := { id := "b".toList, category := [], question := [], answer := [] }

/-- A concrete card (id `"c"`) for witnesses. -/
def cardC : Card := { id := "c".toList, category := [], question := [], answer := [] }

/-- The default import category `'英単語'`. -/
def defaultCategory : Str := "英単語".toList

/-- `MAX_IMPORT_TEXT_LENGTH` from `src/app.js` line 4. -/
def maxImportTextLength : Nat := 100000

/-- The separator-split tokens of a line: `line.split(/[→:：\-－]/)`
(the split is on every occurrence — JavaScript `split` with a regex
splits at each match even without the `g` flag), each part trimmed,
empty parts dropped. -/
def sepParts (line : Str) : List Str :=
  ((splitOnPred isSeparator line).map jsTrim).filter (fun p => p ≠ [])

/-- The whitespace-split tokens of a line: `line.split(/[\s\t]+/)`,
each part trimmed, empty parts dropped. -/
def wsParts (line : Str) : List Str :=
  ((splitOnRuns jsIsWhitespace line).map jsTrim).filter (fun p => p ≠ [])

/-- The card pushed by `parseTextToCards` (id from the identifier
stream, shared category, given question/answer). -/
def mkCard (supply : Nat → Str) (k : Nat) (category q a : Str) : Card :=
  { id := supply k, category := category, question := q, answer := a }

/-- The line loop of `parseTextToCards` (`src/app.js` lines 910-957).
`k` counts the identifiers consumed so far.  Pattern 1: separator
lines; pattern 2: whitespace-delimited lines; pattern 3: two adjacent
single-token lines (consuming both). -/
def parseLinesLoop (supply : Nat → Str) (category : Str) : Nat → List Str → List Card
  | _, [] => []
  | k, [line] =>
    if line.any isSeparator ∧ (sepParts line).length ≥ 2 then
      [mkCard supply k category ((sepParts line).headD [])
          (List.intercalate [' '] ((sepParts line).drop 1))]
    else if (wsParts line).length ≥ 2 then
      [mkCard supply k category ((wsParts line).headD [])
          (List.intercalate [' '] ((wsParts line).drop 1))]
    else []
  | k, line :: next :: rest2 =>
    if line.any isSeparator ∧ (sepParts line).length ≥ 2 then
      mkCard supply k category ((sepParts line).headD [])
          (List.intercalate [' '] ((sepParts line).drop 1))
        :: parseLinesLoop supply category (k + 1) (next :: rest2)
    else if (wsParts line).length ≥ 2 then
      mkCard supply k category ((wsParts line).headD [])
          (List.intercalate [' '] ((wsParts line).drop 1))
        :: parseLinesLoop supply category (k + 1) (next :: rest2)
    else
      match wsParts line, wsParts next with
      | [q], [a] => mkCard supply k category q a :: parseLinesLoop supply category (k + 1) rest2
      | _, _ => parseLinesLoop supply category k (next :: rest2)

/-- `parseTextToCards(text)` from `src/app.js` lines 900-960, with the
DOM-read raw category and the identifier source made explicit.  The
category is trimmed, defaulted to `'英単語'` when empty, and sanitized;
the text is sanitized with the 100000-character bound, split into
lines, each line trimmed and empty lines dropped. -/
def parseTextToCards (supply : Nat → Str) (categoryRaw : Str) (text : Str) : List Card :=
  let categoryInput := if jsTrim categoryRaw = [] then defaultCategory else jsTrim categoryRaw
  let category := sanitizeInput categoryInput 1000
  let sanitizedText := sanitizeInput text maxImportTextLength
  let lines := ((splitOnPred (fun c => c = '\n') sanitizedText).map jsTrim).filter
    (fun l => l ≠ [])
  parseLinesLoop supply category 0 lines

/-- The argument of `deleteCard`: a numeric index (legacy path) or a
string id. -/
inductive IdOrIndex where
  | index (i : Int)
  | cardId (s : Str)

/-- The actual start position used by `Array.prototype.splice(start, 1)`:
negative starts count from the end (clamped at 0), positive starts are
clamped at the length. -/
def spliceStart (len : Nat) (i : Int) : Nat :=
  if i < 0 then ((len : Int) + i).toNat else min i.toNat len

/-- `arr.splice(i, 1)` — removes one element at the clamped start
position (none when the start lands at the end). -/
def spliceRemoveOne {α : Type} (l : List α) (i : Int) : List α :=
  l.take (spliceStart l.length i) ++ l.drop (spliceStart l.length i + 1)

/-- `deleteCard(idOrIndex)` from `src/app.js` lines 181-196, applied to
the loaded card sequence: a number is treated as a `splice` index; a
string removes the first card whose `id` matches (found via
`findIndex`), and is a no-op when none matches. -/
def deleteCard (cards : List Card) : IdOrIndex → List Card
  | .index i => spliceRemoveOne cards i
  | .cardId s =>
    match List.findIdx? (fun c => c.id = s) cards with
    | some idx => spliceRemoveOne cards (idx : Int)
    | none => cards

/-- Swap the elements at positions `i` and `j` (the destructuring swap
`[a[i], a[j]] = [a[j], a[i]]`); out-of-range positions leave the list
unchanged (never happens in the shuffle loop). -/
def listSwap {α : Type} (l : List α) (i j : Nat) : List α :=
  match l[i]?, l[j]? with
  | some a, some b => (l.set i b).set j a
  | _, _ => l

/-- The Fisher–Yates loop of `shuffleCards` (`src/app.js` lines
199-206): for `i` from the counter down to `1`, swap position `i` with
position `draws i % (i+1)` (the value `Math.floor(Math.random()*(i+1))`
of that iteration, supplied as an explicit stream). -/
def shuffleStep {α : Type} (draws : Nat → Nat) (l : List α) : Nat → List α
  | 0 => l
  | i + 1 => shuffleStep draws (listSwap l (i + 1) (draws (i + 1) % (i + 2))) i

/-- `shuffleCards(cards)`: copy the input and run the Fisher–Yates loop
from `length - 1` down to `1`. -/
def shuffleCards {α : Type} (draws : Nat → Nat) (cards : List α) : List α :=
  shuffleStep draws cards (cards.length - 1)

/-- The JSON values a persisted blob can parse to (numbers as integers;
the source never does arithmetic on them). -/
inductive JsonValue where
  | null : JsonValue
  | bool (b : Bool) : JsonValue
  | num (n : Int) : JsonValue
  | str (s : Str) : JsonValue
  | arr (elems : List JsonValue) : JsonValue
  | obj (fields : List (Str × JsonValue)) : JsonValue

/-- The property key `"id"`. -/
def idKey : Str := "id".toList

/-- First binding of a key in an object's field list. -/
def lookupField : List (Str × JsonValue) → Str → Option JsonValue
  | [], _ => none
  | (k, v) :: rest, key => if k = key then some v else lookupField rest key

/-- JavaScript truthiness of a property-access result (`undefined`,
`null`, `false`, `0` and `""` are falsy). -/
def jsTruthy : Option JsonValue → Bool
  | none => false
  | some .null => false
  | some (.bool b) => b
  | some (.num n) => n ≠ 0
  | some (.str s) => s ≠ []
  | some (.arr _) => true
  | some (.obj _) => true

/-- The property read `card.id`: reading a property of `null` throws a
`TypeError` (modelled as `.error`); booleans, numbers, strings and
arrays have no own property named `id`, so the read yields `undefined`;
objects look the key up. -/
def jsGetId : JsonValue → Except Unit (Option JsonValue)
  | .null => .error ()
  | .obj fields => .ok (lookupField fields idKey)
  | _ => .ok none

/-- The index-named own properties contributed by spreading a string or
an array (`{..."ab"}` is `{"0":"a","1":"b"}`). -/
def indexProps (vals : List JsonValue) : List (Str × JsonValue) :=
  (List.range vals.length).zip vals |>.map (fun p => ((toString p.1).toList, p.2))

/-- The own enumerable properties seen by object spread `{...card}`. -/
def jsOwnProps : JsonValue → List (Str × JsonValue)
  | .obj fields => fields
  | .str s => indexProps (s.map (fun c => .str [c]))
  | .arr elems => indexProps elems
  | _ => []

/-- `{...card, id: v}`: keep the original key order, overwriting an
existing `id` binding in place, otherwise appending `id` last. -/
def setIdProp (fields : List (Str × JsonValue)) (v : JsonValue) : List (Str × JsonValue) :=
  if fields.any (fun p => p.1 = idKey) then
    fields.map (fun p => if p.1 = idKey then (idKey, v) else p)
  else fields ++ [(idKey, v)]

/-- Whether a parsed element already carries a truthy `id` (the elements
`loadCards` keeps unchanged). -/
def hasTruthyId (v : JsonValue) : Bool :=
  match v with
  | .obj fields => jsTruthy (lookupField fields idKey)
  | _ => false

/-- The `parsed.map(card => ...)` migration of `loadCards` (`src/app.js`
lines 74-85), with the identifier stream and its cursor made explicit.
Returns the migrated elements, the new cursor, and the `needsMigration`
flag; a `TypeError` while reading `card.id` aborts the whole map. -/
def migrateCards (supply : Nat → Str) : Nat → List JsonValue →
    Except Unit (List JsonValue × Nat × Bool)
  | k, [] => .ok ([], k, false)
  | k, card :: rest =>
    match jsGetId card with
    | .error e => .error e
    | .ok idv =>
      if jsTruthy idv then
        match migrateCards supply k rest with
        | .error e => .error e
        | .ok (cards, k2, m) => .ok (card :: cards, k2, m)
      else
        match migrateCards supply (k + 1) rest with
        | .error e => .error e
        | .ok (cards, k2, _) =>
          .ok (JsonValue.obj (setIdProp (jsOwnProps card) (.str (supply k))) :: cards, k2, true)

/-- The state of the persisted blob under the storage key as seen
through `localStorage.getItem` + `JSON.parse`: absent (`getItem`
returned `null`), present but not valid JSON (`JSON.parse` throws), or
parsed to a JSON value. -/
inductive StoredBlob where
  | absent : StoredBlob
  | malformed : StoredBlob
  | parsed (v : JsonValue) : StoredBlob

/-- `loadCards()` from `src/app.js` lines 65-104, returning both the
value the caller receives and the blob state afterwards.  `persistOk`
says whether the `setItem` writing back a migrated sequence succeeds;
when it fails the error is caught and the storage is left unchanged.
Any exception inside the `try` (malformed JSON, or the `TypeError` from
a `null` array element) degrades to the empty sequence. -/
def loadCardsFull (supply : Nat → Str) (k : Nat) (persistOk : Bool) :
    StoredBlob → List JsonValue × StoredBlob
  | .absent => ([], .absent)
  | .malformed => ([], .malformed)
  | .parsed v =>
    match v with
    | .arr elems =>
      (match migrateCards supply k elems with
       | .ok (cards, _, needsMig) =>
         (cards, if needsMig && persistOk then .parsed (.arr cards) else .parsed v)
       | .error _ => ([], .parsed v))
    | _ => ([], .parsed v)

/-- The value `loadCards()` returns to its caller. -/
def loadCards (supply : Nat → Str) (k : Nat) (persistOk : Bool) (blob : StoredBlob) :
    List JsonValue :=
  (loadCardsFull supply k persistOk blob).1

/-- One character of `escapeHtml` (`div.textContent = text;
div.innerHTML`): `&`, `<`, `>` and NBSP become entities, everything
else is itself. -/
def escapeChar (c : Char) : Str :=
  if c = '&' then "&amp;".toList
  else if c = '<' then "&lt;".toList
  else if c = '>' then "&gt;".toList
  else if c.toNat = 0xA0 then "&nbsp;".toList
  else [c]

/-- `escapeHtml(text)` from `src/app.js` lines 219-223. -/
def escapeHtml (l : Str) : Str :=
  (l.map escapeChar).flatten

/-- `<span class="superscript">`. -/
def supOpen : Str := "<span class=\"superscript\">".toList

/-- `<span class="subscript">`. -/
def subOpen : Str := "<span class=\"subscript\">".toList

/-- `</span>`. -/
def spanClose : Str := "</span>".toList

/-- What the regex `.` matches (anything but a line terminator). -/
def isDotChar (c : Char) : Bool :=
  !(c.toNat = 0x0A || c.toNat = 0x0D || c.toNat = 0x2028 || c.toNat = 0x2029)

/-- Global replace of `marker(.)` (e.g. `/\^(.)/g`) by
`openTag ++ [that character] ++ closeTag`, scanning left to right and
advancing one character when no match starts at the current position. -/
def replaceSingle (marker : Char) (openTag closeTag : Str) : Str → Str
  | [] => []
  | [c] => [c]
  | c :: d :: rest2 =>
    if c = marker then
      if isDotChar d then
        openTag ++ [d] ++ closeTag ++ replaceSingle marker openTag closeTag rest2
      else c :: replaceSingle marker openTag closeTag (d :: rest2)
    else c :: replaceSingle marker openTag closeTag (d :: rest2)

/-- Global replace of `marker\{([^}]+)\}` (e.g. `/\^\{([^}]+)\}/g`) by
`openTag ++ content ++ closeTag`: at a marker followed by `{`, the
(greedy, non-empty) run of non-`}` characters followed by `}` is the
content; when no match starts at the current position the scan advances
one character. -/
def replaceBraced (marker : Char) (openTag closeTag : Str) : Str → Str
  | [] => []
  | c :: rest =>
    if c = marker then
      match rest with
      | b :: rest2 =>
        if b = '\x7b' then
          if rest2.any (fun d => d = '\x7d') ∧ rest2.takeWhile (fun d => d ≠ '\x7d') ≠ [] then
            openTag ++ rest2.takeWhile (fun d => d ≠ '\x7d') ++ closeTag ++
              replaceBraced marker openTag closeTag
                ((rest2.dropWhile (fun d => d ≠ '\x7d')).drop 1)
          else c :: replaceBraced marker openTag closeTag (b :: rest2)
        else c :: replaceBraced marker openTag closeTag (b :: rest2)
      | [] => [c]
    else c :: replaceBraced marker openTag closeTag rest
termination_by l => l.length
decreasing_by
  · have h1 : ((rest2.dropWhile (fun d => d ≠ '\x7d')).drop 1).length
        ≤ (rest2.dropWhile (fun d => d ≠ '\x7d')).length := by
      simp [List.length_drop]
    have h2 : (rest2.dropWhile (fun d => d ≠ '\x7d')).length ≤ rest2.length :=
      (List.dropWhile_sublist _).length_le
    simp only [List.length_cons]
    omega
  all_goals simp_arith [List.length_cons]

/-- `parseSubscriptSuperscript(text)` from `src/app.js` lines 244-259:
escape first, then the four global replaces in source order. -/
def parseSubscriptSuperscript (text : Str) : Str :=
  replaceSingle '_' subOpen spanClose
    (replaceBraced '_' subOpen spanClose
      (replaceSingle '^' supOpen spanClose
        (replaceBraced '^' supOpen spanClose
          (escapeHtml text))))

/-- `pat` is a leading run of `l` (list-of-chars prefix test). -/
def leadsWith : Str → Str → Bool
  | [], _ => true
  | _ :: _, [] => false
  | p :: ps, c :: cs => p = c && leadsWith ps cs

/-- `pat` occurs contiguously somewhere in `l`. -/
def containsRun (pat : Str) : Str → Bool
  | [] => leadsWith pat []
  | c :: rest => leadsWith pat (c :: rest) || containsRun pat rest

/-- `p` is a leading run of `l` (propositional form of `leadsWith`). -/
def IsLeading (p l : Str) : Prop := ∃ y, l = p ++ y

/-- `p` occurs contiguously in `l` (propositional form of `containsRun`). -/
def Occurs (p l : Str) : Prop := ∃ x y, l = x ++ p ++ y

/-- The three-character pattern `"<sc"`; a string with no occurrence of
it cannot contain `"<script>"`. -/
def scPat : Str := ['<', 's', 'c']

/-! ## Helper lemmas -/

theorem migrateCards_error_of_null (supply : Nat → Str) :
    ∀ (k : Nat) (elems : List JsonValue), JsonValue.null ∈ elems →
      migrateCards supply k elems = .error () := by
  intro k elems h
  induction elems generalizing k with
  | nil => cases h
  | cons e rest ih =>
    by_cases he : e = JsonValue.null
    · subst he; rfl
    · have hrest : JsonValue.null ∈ rest := by
        rcases List.mem_cons.mp h with h1 | h1
        · exact absurd h1.symm he
        · exact h1
      cases e with
      | null => exact absurd rfl he
      | bool b => simp [migrateCards, jsGetId, jsTruthy, ih _ hrest]
      | num n => simp [migrateCards, jsGetId, jsTruthy, ih _ hrest]
      | str s => simp [migrateCards, jsGetId, jsTruthy, ih _ hrest]
      | arr xs => simp [migrateCards, jsGetId, jsTruthy, ih _ hrest]
      | obj fields => simp [migrateCards, jsGetId, ih _ hrest]

theorem findIdx?_append_first {α : Type} {p : α → Bool} :
    ∀ (l₁ : List α) (c : α) (l₂ : List α), p c = true → (∀ x ∈ l₁, p x = false) →
      List.findIdx? p (l₁ ++ c :: l₂) = some l₁.length := by
  intro l₁ c l₂ hc h
  induction l₁ with
  | nil => simp [hc]
  | cons x xs ih =>
    have hx : p x = false := h x (by simp)
    have ih2 := ih (fun y hy => h y (by simp [hy]))
    simp [hx, ih2]

/-! ## C5: load never raises -/

/-- C5: for every state of the persistence layer — absent blob,
malformed JSON, or a parsed value that is not an array — `loadCards`
returns the empty sequence (the model is total, so no exception can
reach the caller). -/
theorem loadCards_fails_soft (supply : Nat → Str) (k : Nat) (persistOk : Bool) :
    loadCards supply k persistOk .absent = [] ∧
    loadCards supply k persistOk .malformed = [] ∧
    ∀ v : JsonValue, (∀ elems, v ≠ .arr elems) →
      loadCards supply k persistOk (.parsed v) = [] := by
  refine ⟨rfl, rfl, fun v hv => ?_⟩
  cases v
  case arr elems => exact absurd rfl (hv elems)
  all_goals rfl

/-- Witness for C5 at concrete inputs. -/
theorem loadCards_fails_soft_witness :
    loadCards demoSupply 0 true .absent = [] ∧
    loadCards demoSupply 0 true (.parsed (.num 3)) = [] :=
  ⟨(loadCards_fails_soft demoSupply 0 true).1,
   (loadCards_fails_soft demoSupply 0 true).2.2 (.num 3) (fun _ h => JsonValue.noConfusion h)⟩

/-! ## C10: non-object elements in the persisted array -/

/-- C10 counterexample: an array containing the non-object element `5`
does **not** make `loadCards` return the empty sequence — the number is
treated as an id-less record and migrated to an object holding only the
fresh id. -/
theorem loadCards_nonobject_not_always_empty :
    loadCards demoSupply 0 true (.parsed (.arr [.num 5]))
      = [.obj [(idKey, .str (demoSupply 0))]] ∧
    loadCards demoSupply 0 true (.parsed (.arr [.num 5])) ≠ [] := by
  have h1 : loadCards demoSupply 0 true (.parsed (.arr [.num 5]))
      = [.obj [(idKey, .str (demoSupply 0))]] := rfl
  refine ⟨h1, ?_⟩
  rw [h1]
  simp

/-- C10 amended: the whole-collection discard happens exactly for
`null` elements — whenever the parsed array contains `null`, reading
its `id` throws, the exception is absorbed by the corruption-recovery
path, and `loadCards` returns the empty sequence, discarding even the
well-formed cards in the same array. -/
theorem loadCards_null_element_discards_all (supply : Nat → Str) (k : Nat) (persistOk : Bool)
    (elems : List JsonValue) (h : JsonValue.null ∈ elems) :
    loadCards supply k persistOk (.parsed (.arr elems)) = [] := by
  simp [loadCards, loadCardsFull, migrateCards_error_of_null supply k elems h]

/-- Witness for the amended C10: a well-formed card followed by `null`
is discarded wholesale. -/
theorem loadCards_null_element_discards_all_witness :
    JsonValue.null ∈ [JsonValue.obj [(idKey, .str "a".toList)], JsonValue.null] ∧
    loadCards demoSupply 0 true
      (.parsed (.arr [JsonValue.obj [(idKey, .str "a".toList)], JsonValue.null])) = [] :=
  ⟨by simp,
   loadCards_null_element_discards_all demoSupply 0 true _ (by simp)⟩

/-! ## C3: delete by numeric index -/

/-- C3 counterexample: deleting index `-1` from a two-card store is not
a no-op — `splice` counts negative indices from the end, so the last
card is removed. -/
theorem deleteCard_negative_index_not_noop :
    deleteCard [cardA, cardB] (.index (-1)) = [cardA] ∧
    deleteCard [cardA, cardB] (.index (-1)) ≠ [cardA, cardB] := by
  constructor
  · rfl
  · decide

/-- C3 amended: for a numeric index `i`, an in-range index (`0 ≤ i <
length`) removes the element at that position and an index `≥ length`
is a no-op, but a negative index is **not** a no-op: it removes the
element at position `length + i` (clamped at `0`), following
`Array.prototype.splice`. -/
theorem deleteCard_index_spec (cards : List Card) (i : Int) :
    (0 ≤ i → i < (cards.length : Int) →
      deleteCard cards (.index i) = cards.eraseIdx i.toNat) ∧
    ((cards.length : Int) ≤ i → deleteCard cards (.index i) = cards) ∧
    (i < 0 →
      deleteCard cards (.index i) = cards.eraseIdx (((cards.length : Int) + i).toNat)) := by
  refine ⟨?_, ?_, ?_⟩
  · intro h0 hlt
    have hs : spliceStart cards.length i = i.toNat := by
      simp only [spliceStart, if_neg (by omega : ¬ i < 0)]
      exact Nat.min_eq_left (by omega)
    simp only [deleteCard, spliceRemoveOne, hs, List.eraseIdx_eq_take_drop_succ]
  · intro hge
    have hs : spliceStart cards.length i = cards.length := by
      simp only [spliceStart, if_neg (by omega : ¬ i < 0)]
      exact Nat.min_eq_right (by omega)
    simp only [deleteCard, spliceRemoveOne, hs]
    rw [List.take_of_length_le (Nat.le_refl _), List.drop_eq_nil_of_le (by omega),
      List.append_nil]
  · intro hneg
    have hs : spliceStart cards.length i = ((cards.length : Int) + i).toNat := by
      simp only [spliceStart, if_pos hneg]
    simp only [deleteCard, spliceRemoveOne, hs, List.eraseIdx_eq_take_drop_succ]

/-- Witness for the amended C3 (the spec's own legacy-path test case:
deleting index `0` from two cards leaves the second). -/
theorem deleteCard_index_spec_witness :
    deleteCard [cardA, cardB] (.index 0) = [cardB] := by
  have h := (deleteCard_index_spec [cardA, cardB] 0).1 (by decide) (by decide)
  rw [h]
  rfl

/-! ## C7: delete by id -/

/-- C7: deleting by a string id removes the first card whose id matches,
keeping all other cards in their original relative order, and is a
no-op when no card matches. -/
theorem deleteCard_by_id_spec (cards : List Card) (s : Str) :
    ((∀ c ∈ cards, c.id ≠ s) → deleteCard cards (.cardId s) = cards) ∧
    ∀ l₁ c l₂, cards = l₁ ++ c :: l₂ → c.id = s → (∀ x ∈ l₁, x.id ≠ s) →
      deleteCard cards (.cardId s) = l₁ ++ l₂ := by
  constructor
  · intro h
    have hnone : List.findIdx? (fun c => c.id = s) cards = none := by
      rw [List.findIdx?_eq_none_iff]
      intro x hx
      simpa using h x hx
    simp [deleteCard, hnone]
  · intro l₁ c l₂ hc hid hl₁
    subst hc
    have hfind : List.findIdx? (fun c => c.id = s) (l₁ ++ c :: l₂) = some l₁.length := by
      refine findIdx?_append_first l₁ c l₂ (by simpa using hid) ?_
      intro x hx
      simpa using hl₁ x hx
    have hs : spliceStart (l₁ ++ c :: l₂).length (l₁.length : Int) = l₁.length := by
      simp only [spliceStart, if_neg (by omega : ¬ (l₁.length : Int) < 0)]
      simp only [Int.toNat_natCast]
      exact Nat.min_eq_left (by simp)
    simp only [deleteCard, hfind, spliceRemoveOne, hs]
    rw [List.take_left, List.drop_append 1]
    simp

/-- Witness for C7: from ids `[a,b,c]`, deleting `b` leaves `[a,c]`. -/
theorem deleteCard_by_id_spec_witness :
    deleteCard [cardA, cardB, cardC] (.cardId "b".toList) = [cardA, cardC] := by
  have h := (deleteCard_by_id_spec [cardA, cardB, cardC] "b".toList).2
    [cardA] cardB [cardC] rfl (by decide) (by decide)
  simpa using h

/-! ## Trim/sanitize lemmas -/

theorem dropTrailing_append (p : Char → Bool) (z : Str) :
    dropTrailing p z ++ (z.reverse.takeWhile p).reverse = z := by
  rw [dropTrailing, ← List.reverse_append, List.takeWhile_append_dropWhile,
    List.reverse_reverse]

theorem dropWhile_idem (p : Char → Bool) (l : Str) :
    (l.dropWhile p).dropWhile p = l.dropWhile p := by
  induction l with
  | nil => rfl
  | cons c l ih =>
    by_cases h : p c
    · simp [List.dropWhile_cons, h, ih]
    · simp [List.dropWhile_cons, h]

theorem dropWhile_eq_self_of_append {p : Char → Bool} {z t u : Str}
    (h : z.dropWhile p = z) (hz : z = t ++ u) : t.dropWhile p = t := by
  cases t with
  | nil => rfl
  | cons c t' =>
    subst hz
    by_cases hc : p c
    · exfalso
      rw [List.cons_append, List.dropWhile_cons_of_pos hc] at h
      have hlen : ((t' ++ u).dropWhile p).length ≤ (t' ++ u).length :=
        (List.dropWhile_sublist _).length_le
      rw [h] at hlen
      simp at hlen
    · rw [List.dropWhile_cons_of_neg hc]

theorem jsTrim_idem (l : Str) : jsTrim (jsTrim l) = jsTrim l := by
  have hz : (l.dropWhile jsIsWhitespace).dropWhile jsIsWhitespace
      = l.dropWhile jsIsWhitespace := dropWhile_idem _ _
  have happ := dropTrailing_append jsIsWhitespace (l.dropWhile jsIsWhitespace)
  have h1 : (jsTrim l).dropWhile jsIsWhitespace = jsTrim l :=
    dropWhile_eq_self_of_append hz happ.symm
  show dropTrailing jsIsWhitespace ((jsTrim l).dropWhile jsIsWhitespace) = jsTrim l
  rw [h1]
  show dropTrailing jsIsWhitespace
      (dropTrailing jsIsWhitespace (l.dropWhile jsIsWhitespace))
    = dropTrailing jsIsWhitespace (l.dropWhile jsIsWhitespace)
  rw [dropTrailing, dropTrailing, List.reverse_reverse, dropWhile_idem]

theorem jsTrim_sublist (l : Str) : List.Sublist (jsTrim l) l := by
  have h1 : List.Sublist (dropTrailing jsIsWhitespace (l.dropWhile jsIsWhitespace))
      (l.dropWhile jsIsWhitespace) := by
    conv_rhs => rw [← dropTrailing_append jsIsWhitespace (l.dropWhile jsIsWhitespace)]
    exact List.sublist_append_left _ _
  exact h1.trans (List.dropWhile_sublist _)

theorem filter_jsTrim_filter (q : Char → Bool) (l : Str) :
    (jsTrim (l.filter q)).filter q = jsTrim (l.filter q) := by
  rw [List.filter_eq_self]
  intro a ha
  exact List.of_mem_filter ((jsTrim_sublist (l.filter q)).subset ha)

/-! ## C2: sanitizer idempotence -/

/-- C2 counterexample: with `maxLength = 2`, sanitizing `"a b"` yields
`"a "` (truncation after trimming exposes a trailing space), and
sanitizing again yields `"a"`, so the sanitizer is not idempotent for
every string and every `maxLength`. -/
theorem sanitizeInput_not_idempotent :
    sanitizeInput (sanitizeInput "a b".toList 2) 2 ≠ sanitizeInput "a b".toList 2 := by
  decide

/-- C2 amended: the sanitizer is idempotent whenever truncation does
not actually cut the string — i.e. when the trimmed, control-stripped
text already fits in `maxLength`.  (When truncation cuts the string it
can expose trailing whitespace, which a second application trims.) -/
theorem sanitizeInput_idempotent_of_fits (x : Str) (m : Nat)
    (h : (jsTrim (x.filter (fun c => !jsIsControl c))).length ≤ m) :
    sanitizeInput (sanitizeInput x m) m = sanitizeInput x m := by
  by_cases hx : x = []
  · subst hx; rfl
  · have h1 : sanitizeInput x m = jsTrim (x.filter (fun c => !jsIsControl c)) := by
      simp only [sanitizeInput, if_neg hx]
      exact List.take_of_length_le h
    by_cases hyn : jsTrim (x.filter (fun c => !jsIsControl c)) = []
    · rw [h1, hyn]; rfl
    · rw [h1]
      simp only [sanitizeInput, if_neg hyn]
      rw [filter_jsTrim_filter, jsTrim_idem]
      exact List.take_of_length_le h

/-- Witness for the amended C2: `"  ab  "` with bound 10. -/
theorem sanitizeInput_idempotent_of_fits_witness :
    sanitizeInput (sanitizeInput "  ab  ".toList 10) 10 = sanitizeInput "  ab  ".toList 10 :=
  sanitizeInput_idempotent_of_fits "  ab  ".toList 10 (by decide)

/-! ## C6: migration idempotence -/

theorem migrateCards_all_truthy (supply : Nat → Str) :
    ∀ (k : Nat) (elems : List JsonValue), (∀ e ∈ elems, hasTruthyId e = true) →
      migrateCards supply k elems = .ok (elems, k, false) := by
  intro k elems h
  induction elems generalizing k with
  | nil => rfl
  | cons e rest ih =>
    have he := h e (by simp)
    have hr := ih k (fun e' h' => h e' (List.mem_cons_of_mem _ h'))
    cases e with
    | obj fields =>
      have ht : jsTruthy (lookupField fields idKey) = true := by
        simpa [hasTruthyId] using he
      simp [migrateCards, jsGetId, ht, hr]
    | null => simp [hasTruthyId] at he
    | bool b => simp [hasTruthyId] at he
    | num n => simp [hasTruthyId] at he
    | str s => simp [hasTruthyId] at he
    | arr xs => simp [hasTruthyId] at he

/-- C6: when every persisted card already has a truthy `id`, `loadCards`
returns exactly the parsed sequence, rewrites nothing, and a second
call on the resulting storage state returns the identical sequence
(same elements, same order, same fields). -/
theorem loadCards_migration_idempotent (supply : Nat → Str) (k : Nat) (persistOk : Bool)
    (elems : List JsonValue) (h : ∀ e ∈ elems, hasTruthyId e = true) :
    loadCardsFull supply k persistOk (.parsed (.arr elems)) = (elems, .parsed (.arr elems)) ∧
    ∀ (k2 : Nat) (p2 : Bool),
      loadCards supply k2 p2 ((loadCardsFull supply k persistOk (.parsed (.arr elems))).2)
        = loadCards supply k persistOk (.parsed (.arr elems)) := by
  have hm := migrateCards_all_truthy supply k elems h
  have h1 : loadCardsFull supply k persistOk (.parsed (.arr elems))
      = (elems, .parsed (.arr elems)) := by
    simp [loadCardsFull, hm]
  refine ⟨h1, fun k2 p2 => ?_⟩
  rw [h1]
  have hm2 := migrateCards_all_truthy supply k2 elems h
  simp [loadCards, loadCardsFull, hm, hm2]

/-- Witness for C6 on a one-card store that already has an id. -/
theorem loadCards_migration_idempotent_witness :
    loadCardsFull demoSupply 0 true
        (.parsed (.arr [JsonValue.obj [(idKey, .str "a".toList)]]))
      = ([JsonValue.obj [(idKey, .str "a".toList)]],
         .parsed (.arr [JsonValue.obj [(idKey, .str "a".toList)]])) :=
  (loadCards_migration_idempotent demoSupply 0 true
    [JsonValue.obj [(idKey, .str "a".toList)]]
    (by intro e he; simp at he; subst he; rfl)).1

/-! ## C4: migration completeness -/

theorem lookupField_none_any {fs : List (Str × JsonValue)} {key : Str}
    (h : lookupField fs key = none) : fs.any (fun p => p.1 = key) = false := by
  induction fs with
  | nil => rfl
  | cons kv rest ih =>
    obtain ⟨k', v⟩ := kv
    by_cases hk : k' = key
    · simp [lookupField, hk] at h
    · simp only [lookupField, if_neg hk] at h
      simp [hk, ih h]

theorem migrateCards_legacy (supply : Nat → Str) :
    ∀ (fieldss : List (List (Str × JsonValue))) (k : Nat),
      (∀ fs ∈ fieldss, lookupField fs idKey = none) →
      migrateCards supply k (fieldss.map JsonValue.obj)
        = .ok ((fieldss.enumFrom k).map
                 (fun p => JsonValue.obj (p.2 ++ [(idKey, .str (supply p.1))])),
               k + fieldss.length, !fieldss.isEmpty) := by
  intro fieldss
  induction fieldss with
  | nil => intro k _; rfl
  | cons fs rest ih =>
    intro k h
    have hfs : lookupField fs idKey = none := h fs (by simp)
    have hr := ih (k + 1) (fun fs' h' => h fs' (by simp [h']))
    have hany := lookupField_none_any hfs
    simp only [List.map_cons, migrateCards, jsGetId, hfs, jsTruthy, hr, setIdProp,
      jsOwnProps, hany, Bool.false_eq_true, if_false, List.enumFrom_cons, List.map_cons,
      List.length_cons, List.isEmpty_cons]
    have harith : k + 1 + rest.length = k + (rest.length + 1) := by omega
    simp only [Bool.not_false, harith]

/-- C4: for a persisted sequence of `N` legacy records (objects with no
`id` binding), `loadCards` returns `N` cards; each keeps its original
fields unchanged and in place, with a fresh id appended; the assigned
ids are pairwise distinct and non-empty (for an injective, non-empty
identifier stream); and the returned value does not depend on whether
persisting the migrated sequence succeeds. -/
theorem loadCards_migration_complete (supply : Nat → Str) (k : Nat) (persistOk : Bool)
    (fieldss : List (List (Str × JsonValue)))
    (hleg : ∀ fs ∈ fieldss, lookupField fs idKey = none)
    (hinj : ∀ i j, supply i = supply j → i = j)
    (hne : ∀ i, supply i ≠ []) :
    (loadCards supply k persistOk (.parsed (.arr (fieldss.map JsonValue.obj)))).length
        = fieldss.length ∧
    loadCards supply k persistOk (.parsed (.arr (fieldss.map JsonValue.obj)))
      = (fieldss.enumFrom k).map
          (fun p => JsonValue.obj (p.2 ++ [(idKey, .str (supply p.1))])) ∧
    ((fieldss.enumFrom k).map (fun p => supply p.1)).Nodup ∧
    (∀ s ∈ (fieldss.enumFrom k).map (fun p => supply p.1), s ≠ []) ∧
    ∀ p2 : Bool, loadCards supply k p2 (.parsed (.arr (fieldss.map JsonValue.obj)))
      = loadCards supply k persistOk (.parsed (.arr (fieldss.map JsonValue.obj))) := by
  have hm := migrateCards_legacy supply fieldss k hleg
  have h2 : loadCards supply k persistOk (.parsed (.arr (fieldss.map JsonValue.obj)))
      = (fieldss.enumFrom k).map
          (fun p => JsonValue.obj (p.2 ++ [(idKey, .str (supply p.1))])) := by
    simp [loadCards, loadCardsFull, hm]
  refine ⟨?_, h2, ?_, ?_, ?_⟩
  · rw [h2]; simp
  · have hfst : (fieldss.enumFrom k).map (fun p => supply p.1)
        = (List.range' k fieldss.length).map supply := by
      rw [← List.enumFrom_map_fst k fieldss, List.map_map]
      rfl
    rw [hfst]
    exact List.Nodup.map (fun a b hab => hinj a b hab) (List.nodup_range' _ _)
  · intro s hs
    simp only [List.mem_map] at hs
    obtain ⟨p, _, hp⟩ := hs
    rw [← hp]
    exact hne p.1
  · intro p2
    simp [loadCards, loadCardsFull, hm]

/-- Witness for C4: one legacy record gets exactly its fields plus a
fresh non-empty id appended. -/
theorem loadCards_migration_complete_witness :
    loadCards demoSupply 0 true
        (.parsed (.arr [JsonValue.obj [("question".toList, .str "q".toList)]]))
      = [JsonValue.obj [("question".toList, .str "q".toList),
          (idKey, .str (demoSupply 0))]] := by
  have h := (loadCards_migration_complete demoSupply 0 true
      [[("question".toList, JsonValue.str "q".toList)]]
      (by intro fs hfs; simp at hfs; subst hfs; rfl)
      (fun i j hij => by
        have hlen := congrArg List.length hij
        simpa [demoSupply] using hlen)
      (fun i => by simp [demoSupply])).2.1
  exact h.trans rfl

/-! ## C1: separator lines in the parser -/

theorem splitOnPred_chunk_chars (p : Char → Bool) :
    ∀ (l : Str), ∀ chunk ∈ splitOnPred p l, ∀ c ∈ chunk, p c = false := by
  intro l
  induction l with
  | nil =>
    intro chunk hc c hm
    simp [splitOnPred] at hc
    subst hc
    cases hm
  | cons x rest ih =>
    intro chunk hc c hm
    by_cases hx : p x
    · simp only [splitOnPred, if_pos hx] at hc
      rcases List.mem_cons.mp hc with h1 | h1
      · subst h1; cases hm
      · exact ih chunk h1 c hm
    · simp only [splitOnPred, if_neg hx] at hc
      cases hrec : splitOnPred p rest with
      | nil =>
        rw [hrec] at hc
        simp at hc
        subst hc
        rcases List.mem_singleton.mp hm with rfl
        simpa using hx
      | cons h t =>
        rw [hrec] at hc
        rcases List.mem_cons.mp hc with h1 | h1
        · subst h1
          rcases List.mem_cons.mp hm with rfl | h2
          · simpa using hx
          · exact ih h (by rw [hrec]; exact List.mem_cons_self h t) c h2
        · exact ih chunk (by rw [hrec]; exact List.mem_cons_of_mem h h1) c hm

theorem sepParts_chars {line part : Str} (hp : part ∈ sepParts line) :
    ∀ c ∈ part, isSeparator c = false := by
  intro c hc
  simp only [sepParts, List.mem_filter, List.mem_map] at hp
  obtain ⟨⟨chunk, hchunk, hpart⟩, _⟩ := hp
  subst hpart
  exact splitOnPred_chunk_chars isSeparator line chunk hchunk c
    ((jsTrim_sublist chunk).subset hc)

theorem mem_intersperse_cases {α : Type} {sep a : α} :
    ∀ {xs : List α}, a ∈ List.intersperse sep xs → a = sep ∨ a ∈ xs := by
  intro xs
  induction xs with
  | nil => intro h; cases h
  | cons x t ih =>
    cases t with
    | nil =>
      intro h
      exact Or.inr h
    | cons y t2 =>
      intro h
      rcases List.mem_cons.mp h with rfl | h1
      · exact Or.inr (List.mem_cons_self _ _)
      · rcases List.mem_cons.mp h1 with rfl | h2
        · exact Or.inl rfl
        · rcases ih h2 with h3 | h3
          · exact Or.inl h3
          · exact Or.inr (List.mem_cons_of_mem _ h3)

theorem mem_intercalate_cases {sep a : Char} {xs : List Str}
    (h : a ∈ List.intercalate [sep] xs) : a = sep ∨ ∃ x ∈ xs, a ∈ x := by
  rw [List.intercalate] at h
  rcases List.mem_flatten.mp h with ⟨l, hl, hal⟩
  rcases mem_intersperse_cases hl with h1 | h1
  · subst h1
    exact Or.inl (List.mem_singleton.mp hal)
  · exact Or.inr ⟨l, h1, hal⟩

/-- C1 amended: a line containing at least one separator is split on
**every** separator occurrence (JavaScript `split` with a regex ignores
the absence of the `g` flag); the parts are trimmed, empty parts are
dropped, and when at least two parts remain the produced card has the
first part as question and the remaining parts joined by single spaces
as answer — consequently the answer contains **no** separator character
at all (separators after the first are removed, not kept). -/
theorem parseLinesLoop_separator_line (supply : Nat → Str) (category : Str) (k : Nat)
    (line : Str) (rest : List Str)
    (hsep : line.any isSeparator = true) (hlen : 2 ≤ (sepParts line).length) :
    parseLinesLoop supply category k (line :: rest)
      = mkCard supply k category ((sepParts line).headD [])
          (List.intercalate [' '] ((sepParts line).drop 1))
        :: parseLinesLoop supply category (k + 1) rest ∧
    ∀ c ∈ List.intercalate [' '] ((sepParts line).drop 1), isSeparator c = false := by
  constructor
  · cases rest with
    | nil => simp [parseLinesLoop, hsep, hlen]
    | cons next rest2 => simp [parseLinesLoop, hsep, hlen]
  · intro c hc
    rcases mem_intercalate_cases hc with rfl | ⟨part, hpart, hcp⟩
    · rfl
    · exact sepParts_chars (List.mem_of_mem_drop hpart) c hcp

/-- C1 counterexample: on the line `"a-b-c"` the parser does not keep
the separators after the first inside the answer — it produces answer
`"b c"`, not `"b-c"`. -/
theorem parseTextToCards_not_first_occurrence_only :
    (parseTextToCards demoSupply [] "a-b-c".toList).map Card.answer = ["b c".toList] ∧
    ("b c".toList : Str) ≠ "b-c".toList := by
  constructor
  · decide
  · decide

/-- Witness for the amended C1 on the line `"a-b-c"` (with one more
line after it): question `"a"`, answer `"b c"`. -/
theorem parseLinesLoop_separator_line_witness :
    parseLinesLoop demoSupply "cat".toList 0 ["a-b-c".toList, "x".toList]
      = mkCard demoSupply 0 "cat".toList "a".toList "b c".toList
        :: parseLinesLoop demoSupply "cat".toList 1 ["x".toList] ∧
    ∀ c ∈ ("b c".toList : Str), isSeparator c = false := by
  have h := parseLinesLoop_separator_line demoSupply "cat".toList 0
    "a-b-c".toList ["x".toList] (by decide) (by decide)
  constructor
  · exact h.1.trans (by decide)
  · intro c hc
    have heq : List.intercalate [' '] (List.drop 1 (sepParts "a-b-c".toList))
        = "b c".toList := by decide
    exact h.2 c (by rw [heq]; exact hc)

/-! ## C9: shuffle is a reachable permutation -/

theorem listSwap_length {α : Type} (l : List α) (i j : Nat) :
    (listSwap l i j).length = l.length := by
  unfold listSwap
  cases h1 : l[i]? with
  | none => rfl
  | some a =>
    cases h2 : l[j]? with
    | none => rfl
    | some b => simp

theorem swapHead_perm {α : Type} :
    ∀ (xs : List α) (n : Nat) (b a : α), xs[n]? = some b →
      List.Perm (b :: xs.set n a) (a :: xs) := by
  intro xs
  induction xs with
  | nil => intro n b a h; simp at h
  | cons y t ih =>
    intro n b a h
    cases n with
    | zero =>
      simp at h
      subst h
      exact List.Perm.swap _ _ _
    | succ m =>
      simp only [List.getElem?_cons_succ] at h
      have h1 : List.Perm (b :: y :: t.set m a) (y :: b :: t.set m a) :=
        List.Perm.swap _ _ _
      have h2 : List.Perm (y :: b :: t.set m a) (y :: a :: t) :=
        List.Perm.cons y (ih m b a h)
      have h3 : List.Perm (y :: a :: t) (a :: y :: t) := List.Perm.swap _ _ _
      simpa using (h1.trans h2).trans h3

theorem set_set_perm {α : Type} :
    ∀ (l : List α) (i j : Nat) (a b : α), l[i]? = some a → l[j]? = some b →
      List.Perm ((l.set i b).set j a) l := by
  intro l
  induction l with
  | nil => intro i j a b h1 _; simp at h1
  | cons x xs ih =>
    intro i j a b h1 h2
    cases i with
    | zero =>
      have hxa : x = a := by simpa using h1
      cases j with
      | zero =>
        have hxb : x = b := by simpa using h2
        subst hxa
        subst hxb
        simp
      | succ m =>
        have h2b : xs[m]? = some b := by simpa using h2
        subst hxa
        simp only [List.set_cons_zero, List.set_cons_succ]
        exact swapHead_perm xs m b x h2b
    | succ n =>
      have h1a : xs[n]? = some a := by simpa using h1
      cases j with
      | zero =>
        have hxb : x = b := by simpa using h2
        subst hxb
        simp only [List.set_cons_succ, List.set_cons_zero]
        exact swapHead_perm xs n a x h1a
      | succ m =>
        have h2b : xs[m]? = some b := by simpa using h2
        simp only [List.set_cons_succ]
        exact List.Perm.cons x (ih n m a b h1a h2b)

theorem listSwap_perm {α : Type} (l : List α) (i j : Nat) :
    List.Perm (listSwap l i j) l := by
  unfold listSwap
  cases h1 : l[i]? with
  | none => exact List.Perm.refl l
  | some a =>
    cases h2 : l[j]? with
    | none => exact List.Perm.refl l
    | some b => exact set_set_perm l i j a b h1 h2

theorem shuffleStep_perm {α : Type} (draws : Nat → Nat) :
    ∀ (i : Nat) (l : List α), List.Perm (shuffleStep draws l i) l := by
  intro i
  induction i with
  | zero => intro l; exact List.Perm.refl l
  | succ i ih =>
    intro l
    exact (ih _).trans (listSwap_perm l (i + 1) (draws (i + 1) % (i + 2)))

theorem listSwap_getElem?_other {α : Type} (l : List α) (i j k : Nat)
    (hik : i ≠ k) (hjk : j ≠ k) : (listSwap l i j)[k]? = l[k]? := by
  unfold listSwap
  cases h1 : l[i]? with
  | none => rfl
  | some a =>
    cases h2 : l[j]? with
    | none => rfl
    | some b => rw [List.getElem?_set_ne hjk, List.getElem?_set_ne hik]

theorem shuffleStep_getElem?_high {α : Type} (draws : Nat → Nat) :
    ∀ (i : Nat) (l : List α) (k : Nat), i < k → (shuffleStep draws l i)[k]? = l[k]? := by
  intro i
  induction i with
  | zero => intro l k _; rfl
  | succ i ih =>
    intro l k hk
    have h1 := ih (listSwap l (i + 1) (draws (i + 1) % (i + 2))) k (by omega)
    rw [shuffleStep, h1, listSwap_getElem?_other]
    · omega
    · have : draws (i + 1) % (i + 2) < i + 2 := Nat.mod_lt _ (by omega)
      omega

theorem shuffleStep_congr {α : Type} (draws draws2 : Nat → Nat) :
    ∀ (i : Nat) (l : List α), (∀ m, m ≤ i → draws m = draws2 m) →
      shuffleStep draws l i = shuffleStep draws2 l i := by
  intro i
  induction i with
  | zero => intro l _; rfl
  | succ i ih =>
    intro l h
    rw [shuffleStep, shuffleStep, h (i + 1) (Nat.le_refl _),
      ih _ (fun m hm => h m (by omega))]

theorem listSwap_take {α : Type} (l : List α) (i j n : Nat)
    (hi : i < n) (hj : j < n) : (listSwap l i j).take n = listSwap (l.take n) i j := by
  unfold listSwap
  rw [List.getElem?_take_of_lt hi, List.getElem?_take_of_lt hj]
  cases h1 : l[i]? with
  | none => rfl
  | some a =>
    cases h2 : l[j]? with
    | none => rfl
    | some b => rw [List.set_take, List.set_take]

theorem shuffleStep_reaches {α : Type} :
    ∀ (i : Nat) (l target : List α), l.length = target.length → i < l.length →
      (∀ m, i < m → l[m]? = target[m]?) →
      List.Perm (l.take (i + 1)) (target.take (i + 1)) →
      ∃ draws, shuffleStep draws l i = target := by
  intro i
  induction i with
  | zero =>
    intro l target hlen hi hagree hperm
    refine ⟨fun _ => 0, ?_⟩
    show l = target
    apply List.ext_getElem?
    intro n
    cases n with
    | zero =>
      cases l with
      | nil => simp at hi
      | cons a t =>
        cases target with
        | nil => simp at hlen
        | cons b u =>
          have hab : a = b := by
            simp only [List.take_succ_cons, List.take_zero] at hperm
            exact List.singleton_perm_singleton.mp hperm
          simp [hab]
    | succ m => exact hagree (m + 1) (by omega)
  | succ i ih =>
    intro l target hlen hi hagree hperm
    have hit : i + 1 < target.length := by omega
    have htv : target[i + 1]? = some target[i + 1] := List.getElem?_eq_getElem hit
    set tv := target[i + 1] with htvdef
    have htv_mem : tv ∈ target.take (i + 2) :=
      List.getElem?_mem (by rw [List.getElem?_take_of_lt (by omega : i + 1 < i + 2)]; exact htv)
    have htv_mem_l : tv ∈ l.take (i + 2) := hperm.mem_iff.mpr htv_mem
    obtain ⟨k, hk⟩ := List.mem_iff_getElem?.mp htv_mem_l
    have hklen : k < (l.take (i + 2)).length := by
      by_contra hcon
      rw [List.getElem?_eq_none (by omega)] at hk
      cases hk
    have hkb : k < i + 2 := by
      have := List.length_take_le (i + 2) l
      omega
    have hkl : l[k]? = some tv := by
      rw [← List.getElem?_take_of_lt hkb]
      exact hk
    set l2 := listSwap l (i + 1) k with hl2def
    have hlen2 : l2.length = l.length := listSwap_length l (i + 1) k
    have hl2v : l2[i + 1]? = some tv := by
      obtain ⟨lv, hlv2⟩ : ∃ lv, l[i + 1]? = some lv := ⟨_, List.getElem?_eq_getElem hi⟩
      rw [hl2def]
      unfold listSwap
      rw [hlv2, hkl]
      by_cases hk1 : k = i + 1
      · subst hk1
        have hlvtv : lv = tv := Option.some.inj (hlv2.symm.trans hkl)
        rw [List.getElem?_set_self (by rw [List.length_set]; omega), hlvtv]
      · rw [List.getElem?_set_ne hk1, List.getElem?_set_self (by omega)]
    have hagree2 : ∀ m, i + 1 < m → l2[m]? = target[m]? := by
      intro m hm
      rw [hl2def, listSwap_getElem?_other l (i + 1) k m (by omega) (by omega)]
      exact hagree m hm
    have hperm2 : List.Perm (l2.take (i + 2)) (target.take (i + 2)) := by
      rw [hl2def, listSwap_take l (i + 1) k (i + 2) (by omega) hkb]
      exact (listSwap_perm (l.take (i + 2)) (i + 1) k).trans hperm
    have hpre : List.Perm (l2.take (i + 1)) (target.take (i + 1)) := by
      have e1 : l2.take (i + 2) = l2.take (i + 1) ++ [tv] := by
        rw [List.take_succ, hl2v]
        rfl
      have e2 : target.take (i + 2) = target.take (i + 1) ++ [tv] := by
        rw [List.take_succ, htv]
        rfl
      rw [e1, e2] at hperm2
      exact (List.perm_append_right_iff [tv]).mp hperm2
    have ihapp := ih l2 target (by omega) (by omega)
      (by
        intro m hm
        by_cases hm1 : m = i + 1
        · subst hm1
          rw [hl2v, htv]
        · exact hagree2 m (by omega))
      hpre
    obtain ⟨draws2, hdraws2⟩ := ihapp
    refine ⟨fun m => if m = i + 1 then k else draws2 m, ?_⟩
    rw [shuffleStep]
    have harg : (if i + 1 = i + 1 then k else draws2 (i + 1)) % (i + 2) = k := by
      rw [if_pos rfl]
      exact Nat.mod_eq_of_lt hkb
    rw [harg]
    rw [shuffleStep_congr _ draws2 i _ (fun m hm => by rw [if_neg (by omega)])]
    exact hdraws2

/-- C9: the Fisher–Yates shuffle returns a permutation of its input
for every stream of random draws, and every permutation of the input is
reached by some stream of draws.  (The model is pure: the source copies
the input with `[...cards]` before swapping, so the input sequence is
not mutated.) -/
theorem shuffleCards_spec {α : Type} (cards : List α) :
    (∀ draws, List.Perm (shuffleCards draws cards) cards) ∧
    ∀ target, List.Perm target cards → ∃ draws, shuffleCards draws cards = target := by
  constructor
  · intro draws
    exact shuffleStep_perm draws (cards.length - 1) cards
  · intro target hperm
    cases hc : cards with
    | nil =>
      subst hc
      have : target = [] := hperm.eq_nil
      subst this
      exact ⟨fun _ => 0, rfl⟩
    | cons x xs =>
      subst hc
      have hlen : target.length = (x :: xs).length := hperm.length_eq
      refine shuffleStep_reaches ((x :: xs).length - 1) (x :: xs) target (by omega) ?_ ?_ ?_
      · simp
      · intro m hm
        have hx : (x :: xs).length ≤ m := by
          simp only [List.length_cons] at hm ⊢
          omega
        rw [List.getElem?_eq_none hx, List.getElem?_eq_none (by omega)]
      · have h1 : (x :: xs).length - 1 + 1 = (x :: xs).length := by simp
        rw [h1, List.take_of_length_le (Nat.le_refl _), List.take_of_length_le (by omega)]
        exact hperm.symm

/-- Witness for C9: the reversal `[2,1]` of `[1,2]` is reachable, and
any draw stream yields a permutation. -/
theorem shuffleCards_spec_witness :
    List.Perm (shuffleCards (fun _ => 0) [1, 2]) [1, 2] ∧
    ∃ draws, shuffleCards draws ([1, 2] : List Nat) = [2, 1] :=
  ⟨(shuffleCards_spec [1, 2]).1 (fun _ => 0),
   (shuffleCards_spec [1, 2]).2 [2, 1] (by decide)⟩

/-! ## Occurrence machinery for the markup transformer -/

theorem leadsWith_iff : ∀ (p l : Str), leadsWith p l = true ↔ IsLeading p l := by
  intro p
  induction p with
  | nil => intro l; simp [leadsWith, IsLeading]
  | cons a ps ih =>
    intro l
    cases l with
    | nil =>
      simp only [leadsWith, IsLeading]
      constructor
      · intro h; cases h
      · rintro ⟨y, h⟩; cases h
    | cons c cs =>
      simp only [leadsWith, Bool.and_eq_true, decide_eq_true_eq, ih cs, IsLeading]
      constructor
      · rintro ⟨rfl, y, rfl⟩
        exact ⟨y, rfl⟩
      · rintro ⟨y, h⟩
        rw [List.cons_append] at h
        cases h
        exact ⟨rfl, y, rfl⟩

theorem occurs_cons_elim {p : Str} {c : Char} {l : Str} (h : Occurs p (c :: l)) :
    IsLeading p (c :: l) ∨ Occurs p l := by
  obtain ⟨x, y, hxy⟩ := h
  cases x with
  | nil => exact Or.inl ⟨y, by simpa using hxy⟩
  | cons c2 x2 =>
    rw [List.cons_append, List.cons_append] at hxy
    injection hxy with h1 h2
    exact Or.inr ⟨x2, y, h2⟩

theorem occurs_cons_intro {p : Str} (c : Char) {l : Str} (h : Occurs p l) :
    Occurs p (c :: l) := by
  obtain ⟨x, y, rfl⟩ := h
  exact ⟨c :: x, y, rfl⟩

theorem isLeading_occurs {p l : Str} (h : IsLeading p l) : Occurs p l := by
  obtain ⟨y, rfl⟩ := h
  exact ⟨[], y, rfl⟩

theorem containsRun_iff : ∀ (l p : Str), containsRun p l = true ↔ Occurs p l := by
  intro l
  induction l with
  | nil =>
    intro p
    simp only [containsRun, leadsWith_iff]
    constructor
    · rintro ⟨y, h⟩
      exact ⟨[], y, by simpa using h⟩
    · rintro ⟨x, y, h⟩
      have hx : x = [] := by
        cases x with
        | nil => rfl
        | cons a t => cases h
      subst hx
      exact ⟨y, by simpa using h⟩
  | cons c rest ih =>
    intro p
    simp only [containsRun, Bool.or_eq_true, leadsWith_iff, ih]
    constructor
    · rintro (h | h)
      · exact isLeading_occurs h
      · exact occurs_cons_intro c h
    · intro h
      rcases occurs_cons_elim h with h | h
      · exact Or.inl h
      · exact Or.inr h

theorem occurs_length {p l : Str} (h : Occurs p l) : p.length ≤ l.length := by
  obtain ⟨x, y, rfl⟩ := h
  simp
  omega

theorem occurs_append_left {p a : Str} (b : Str) (h : Occurs p a) :
    Occurs p (a ++ b) := by
  obtain ⟨x, y, rfl⟩ := h
  exact ⟨x, y ++ b, by simp⟩

theorem isLeading_append_cases : ∀ (p a b : Str), IsLeading p (a ++ b) →
    (∃ z, a = p ++ z) ∨
    ∃ p1 p2, p = p1 ++ p2 ∧ a = p1 ∧ IsLeading p2 b := by
  intro p a
  induction a generalizing p with
  | nil =>
    intro b h
    exact Or.inr ⟨[], p, rfl, rfl, by simpa using h⟩
  | cons c a2 ih =>
    intro b h
    cases p with
    | nil => exact Or.inl ⟨c :: a2, rfl⟩
    | cons pc p2 =>
      obtain ⟨y, hy⟩ := h
      rw [List.cons_append, List.cons_append] at hy
      injection hy with h1 h2
      subst h1
      rcases ih p2 b ⟨y, h2⟩ with ⟨z, hz⟩ | ⟨q1, q2, hq, ha2, hlead⟩
      · exact Or.inl ⟨z, by rw [hz, List.cons_append]⟩
      · exact Or.inr ⟨c :: q1, q2, by rw [hq, List.cons_append], by rw [ha2], hlead⟩

/-- Decompose an occurrence in `a ++ b`: it lies entirely in `a`,
entirely in `b`, or straddles the boundary, splitting the pattern into
a non-empty suffix of `a` followed by a non-empty leading run of `b`. -/
theorem occurs_append_cases : ∀ (p a b : Str), Occurs p (a ++ b) →
    Occurs p a ∨ Occurs p b ∨
    ∃ p1 p2, p = p1 ++ p2 ∧ p1 ≠ [] ∧ p2 ≠ [] ∧ (∃ x, a = x ++ p1) ∧ IsLeading p2 b := by
  intro p a
  induction a generalizing p with
  | nil =>
    intro b h
    exact Or.inr (Or.inl (by simpa using h))
  | cons c a2 ih =>
    intro b h
    rw [List.cons_append] at h
    rcases occurs_cons_elim h with hlead | hocc
    · rw [← List.cons_append] at hlead
      rcases isLeading_append_cases p (c :: a2) b hlead with ⟨z, hz⟩ | ⟨p1, p2, hp, ha, hl2⟩
      · exact Or.inl ⟨[], z, by simpa using hz⟩
      · cases hp2e : p2 with
        | nil =>
          subst hp2e
          left
          refine ⟨[], [], ?_⟩
          rw [hp, ha]
          simp
        | cons q qt =>
          right; right
          refine ⟨p1, p2, hp, ?_, ?_, ⟨[], by simp [← ha]⟩, hl2⟩
          · intro hcon
            rw [hcon] at ha
            exact List.noConfusion ha
          · rw [hp2e]
            simp
    · rcases ih p b hocc with h1 | h1 | ⟨p1, p2, hp, h1, h2, ⟨x, hx⟩, hl2⟩
      · exact Or.inl (occurs_cons_intro c h1)
      · exact Or.inr (Or.inl h1)
      · exact Or.inr (Or.inr ⟨p1, p2, hp, h1, h2, ⟨c :: x, by rw [hx, List.cons_append]⟩, hl2⟩)

/-- The only ways to split `"<sc"` into two non-empty parts. -/
theorem scPat_splits {p1 p2 : Str} (h : p1 ++ p2 = scPat) (h1 : p1 ≠ []) (h2 : p2 ≠ []) :
    (p1 = ['<'] ∧ p2 = ['s', 'c']) ∨ (p1 = ['<', 's'] ∧ p2 = ['c']) := by
  match p1, h1 with
  | [a], _ =>
    simp only [scPat, List.cons_append, List.nil_append, List.cons.injEq] at h
    obtain ⟨rfl, rfl⟩ := h
    exact Or.inl ⟨rfl, rfl⟩
  | [a, b], _ =>
    simp only [scPat, List.cons_append, List.nil_append, List.cons.injEq] at h
    obtain ⟨rfl, rfl, rfl⟩ := h
    exact Or.inr ⟨rfl, rfl⟩
  | a :: b :: c :: t, _ =>
    exfalso
    have hlen := congrArg List.length h
    simp only [scPat, List.length_append, List.length_cons, List.length_nil] at hlen
    have h2len : 1 ≤ p2.length := List.length_pos.mpr h2
    omega

/-! ## Step lemmas for the markup replacers -/

theorem RB_nil (m : Char) (o cl : Str) : replaceBraced m o cl [] = [] :=
  replaceBraced.eq_1 m o cl

theorem RB_single (m : Char) (o cl : Str) (c : Char) : replaceBraced m o cl [c] = [c] := by
  rw [replaceBraced.eq_3]
  by_cases hc : c = m
  · rw [if_pos hc]
  · rw [if_neg hc, RB_nil]

theorem RB_keep (m : Char) (o cl : Str) {c : Char} (rest : Str) (hc : c ≠ m) :
    replaceBraced m o cl (c :: rest) = c :: replaceBraced m o cl rest := by
  cases rest with
  | nil => rw [replaceBraced.eq_3, if_neg hc]
  | cons b rest2 => rw [replaceBraced.eq_2, if_neg hc]

theorem RB_marker_nobrace (m : Char) (o cl : Str) {b : Char} (rest2 : Str) (hb : b ≠ '\x7b') :
    replaceBraced m o cl (m :: b :: rest2) = m :: replaceBraced m o cl (b :: rest2) := by
  rw [replaceBraced.eq_2, if_pos rfl, if_neg hb]

theorem RB_match (m : Char) (o cl : Str) (rest2 : Str)
    (hcond : rest2.any (fun d => d = '\x7d') ∧ rest2.takeWhile (fun d => d ≠ '\x7d') ≠ []) :
    replaceBraced m o cl (m :: '\x7b' :: rest2)
      = o ++ rest2.takeWhile (fun d => d ≠ '\x7d') ++ cl ++
          replaceBraced m o cl ((rest2.dropWhile (fun d => d ≠ '\x7d')).drop 1) := by
  rw [replaceBraced.eq_2, if_pos rfl, if_pos rfl, if_pos hcond]

theorem RB_nomatch (m : Char) (o cl : Str) (rest2 : Str)
    (hcond : ¬(rest2.any (fun d => d = '\x7d') ∧ rest2.takeWhile (fun d => d ≠ '\x7d') ≠ [])) :
    replaceBraced m o cl (m :: '\x7b' :: rest2)
      = m :: replaceBraced m o cl ('\x7b' :: rest2) := by
  rw [replaceBraced.eq_2, if_pos rfl, if_pos rfl, if_neg hcond]

theorem not_occurs_of_containsRun_false {p l : Str} (h : containsRun p l = false) :
    ¬ Occurs p l := by
  intro ho
  rw [(containsRun_iff l p).mpr ho] at h
  exact Bool.noConfusion h

theorem not_ends_single {l : Str} {g : Char} (hg : l.getLast? = some g) {c : Char}
    (hne : c ≠ g) : ¬ ∃ x, l = x ++ [c] := by
  rintro ⟨x, rfl⟩
  rw [List.getLast?_concat] at hg
  exact hne (Option.some.inj hg)

theorem not_ends_pair {l : Str} {g : Char} (hg : l.getLast? = some g) (c1 : Char) {c2 : Char}
    (hne : c2 ≠ g) : ¬ ∃ x, l = x ++ [c1, c2] := by
  rintro ⟨x, rfl⟩
  rw [show x ++ [c1, c2] = (x ++ [c1]) ++ [c2] by simp, List.getLast?_concat] at hg
  exact hne (Option.some.inj hg)

/-! ## The pattern `"<sc"` never appears after a replace pass -/

theorem replaceSingle_isLeading_c {m : Char} {o cl z : Str}
    (hm : m ≠ 'c') (ho : o = '<' :: z) :
    ∀ l, IsLeading ['c'] (replaceSingle m o cl l) → IsLeading ['c'] l := by
  intro l
  match l with
  | [] => intro h; exact h
  | [c] => intro h; exact h
  | c :: d :: rest2 =>
    intro h
    by_cases hcm : c = m
    · by_cases hd : isDotChar d
      · simp only [replaceSingle, if_pos hcm, if_pos hd, ho] at h
        obtain ⟨y, hy⟩ := h
        rw [List.cons_append, List.cons_append] at hy
        injection hy with h1 _
        exact absurd h1 (by decide)
      · simp only [replaceSingle, if_pos hcm, if_neg hd] at h
        obtain ⟨y, hy⟩ := h
        rw [List.cons_append] at hy
        injection hy with h1 _
        subst hcm
        exact absurd h1 (by simpa using hm)
    · simp only [replaceSingle, if_neg hcm] at h
      obtain ⟨y, hy⟩ := h
      rw [List.cons_append] at hy
      injection hy with h1 _
      exact ⟨d :: rest2, by rw [h1]; rfl⟩

theorem replaceSingle_isLeading_sc {m : Char} {o cl z : Str}
    (hms : m ≠ 's') (hmc : m ≠ 'c') (ho : o = '<' :: z) :
    ∀ l, IsLeading ['s', 'c'] (replaceSingle m o cl l) → IsLeading ['s', 'c'] l := by
  intro l
  match l with
  | [] => intro h; exact h
  | [c] => intro h; exact h
  | c :: d :: rest2 =>
    intro h
    by_cases hcm : c = m
    · by_cases hd : isDotChar d
      · simp only [replaceSingle, if_pos hcm, if_pos hd, ho] at h
        obtain ⟨y, hy⟩ := h
        rw [List.cons_append, List.cons_append] at hy
        injection hy with h1 _
        exact absurd h1 (by decide)
      · simp only [replaceSingle, if_pos hcm, if_neg hd] at h
        obtain ⟨y, hy⟩ := h
        rw [List.cons_append] at hy
        injection hy with h1 _
        subst hcm
        exact absurd h1 (by simpa using hms)
    · simp only [replaceSingle, if_neg hcm] at h
      obtain ⟨y, hy⟩ := h
      rw [List.cons_append] at hy
      injection hy with h1 h2
      have hsub : IsLeading ['c'] (replaceSingle m o cl (d :: rest2)) := ⟨y, h2⟩
      obtain ⟨y2, hy2⟩ := replaceSingle_isLeading_c hmc ho (d :: rest2) hsub
      exact ⟨y2, by rw [h1, hy2]; rfl⟩

theorem replaceSingle_preserves_noSC {m : Char} {o cl z w : Str}
    (hmlt : m ≠ '<') (hms : m ≠ 's') (hmc : m ≠ 'c')
    (ho : o = '<' :: z) (hcl : cl = '<' :: w)
    (hoNo : ¬ Occurs scPat o)
    (hoE1 : ¬ ∃ x, o = x ++ ['<']) (hoE2 : ¬ ∃ x, o = x ++ ['<', 's'])
    (hclNo : ¬ Occurs scPat cl)
    (hclE1 : ¬ ∃ x, cl = x ++ ['<']) (hclE2 : ¬ ∃ x, cl = x ++ ['<', 's']) :
    ∀ (n : Nat) (l : Str), l.length ≤ n → ¬ Occurs scPat l →
      ¬ Occurs scPat (replaceSingle m o cl l) := by
  intro n
  induction n with
  | zero =>
    intro l hlen _
    have hnil : l = [] := List.length_eq_zero.mp (by omega)
    subst hnil
    intro h
    have := occurs_length h
    simp [scPat, replaceSingle] at this
  | succ n ih =>
    intro l hlen hno
    match l with
    | [] =>
      intro h
      have := occurs_length h
      simp [scPat, replaceSingle] at this
    | [c] =>
      intro h
      have := occurs_length h
      simp [scPat, replaceSingle] at this
    | c :: d :: rest2 =>
      have hlen2 : rest2.length ≤ n := by
        simp only [List.length_cons] at hlen
        omega
      have hlen1 : (d :: rest2).length ≤ n := by
        simp only [List.length_cons] at hlen ⊢
        omega
      have hsub2 : ¬ Occurs scPat rest2 :=
        fun hq => hno (occurs_cons_intro c (occurs_cons_intro d hq))
      have hsub1 : ¬ Occurs scPat (d :: rest2) := fun hq => hno (occurs_cons_intro c hq)
      by_cases hcm : c = m
      · by_cases hd : isDotChar d
        · simp only [replaceSingle, if_pos hcm, if_pos hd]
          intro hocc
          have hrec : ¬ Occurs scPat (replaceSingle m o cl rest2) := ih rest2 hlen2 hsub2
          rw [List.append_assoc, List.append_assoc] at hocc
          rcases occurs_append_cases scPat o ([d] ++ (cl ++ replaceSingle m o cl rest2))
              hocc with hA | hB | ⟨p1, p2, hsplit, hne1, hne2, hend, hlead⟩
          · exact hoNo hA
          · rcases occurs_append_cases scPat [d] (cl ++ replaceSingle m o cl rest2)
                hB with hC | hD | ⟨p1, p2, hsplit, hne1, hne2, hend, hlead⟩
            · have := occurs_length hC
              simp [scPat] at this
            · rcases occurs_append_cases scPat cl (replaceSingle m o cl rest2)
                  hD with hE | hF | ⟨p1, p2, hsplit, hne1, hne2, hend, hlead⟩
              · exact hclNo hE
              · exact hrec hF
              · rcases scPat_splits hsplit.symm hne1 hne2 with ⟨e1, _⟩ | ⟨e1, _⟩
                · subst e1
                  exact hclE1 hend
                · subst e1
                  exact hclE2 hend
            · rcases scPat_splits hsplit.symm hne1 hne2 with ⟨_, e2⟩ | ⟨e1, _⟩
              · subst e2
                obtain ⟨y, hy⟩ := hlead
                rw [hcl, List.cons_append, List.cons_append] at hy
                injection hy with h1 _
                exact absurd h1 (by decide)
              · subst e1
                obtain ⟨x, hx⟩ := hend
                have := congrArg List.length hx
                simp at this
          · rcases scPat_splits hsplit.symm hne1 hne2 with ⟨e1, _⟩ | ⟨e1, _⟩
            · subst e1
              exact hoE1 hend
            · subst e1
              exact hoE2 hend
        · simp only [replaceSingle, if_pos hcm, if_neg hd]
          intro hocc
          have hrec : ¬ Occurs scPat (replaceSingle m o cl (d :: rest2)) := ih (d :: rest2) hlen1 hsub1
          rcases occurs_cons_elim hocc with hl | hr
          · obtain ⟨y, hy⟩ := hl
            rw [show scPat ++ y = '<' :: ('s' :: 'c' :: y) from rfl] at hy
            injection hy with h1 _
            subst hcm
            exact absurd h1 (by simpa using hmlt)
          · exact hrec hr
      · simp only [replaceSingle, if_neg hcm]
        intro hocc
        have hrec : ¬ Occurs scPat (replaceSingle m o cl (d :: rest2)) := ih (d :: rest2) hlen1 hsub1
        rcases occurs_cons_elim hocc with hl | hr
        · obtain ⟨y, hy⟩ := hl
          rw [show scPat ++ y = '<' :: ('s' :: 'c' :: y) from rfl] at hy
          injection hy with h1 h2
          have hsl : IsLeading ['s', 'c'] (replaceSingle m o cl (d :: rest2)) := ⟨y, h2⟩
          obtain ⟨y2, hy2⟩ := replaceSingle_isLeading_sc hms hmc ho (d :: rest2) hsl
          apply hno
          refine ⟨[], y2, ?_⟩
          rw [List.nil_append, show scPat ++ y2 = '<' :: (['s', 'c'] ++ y2) from rfl, ← h1, ← hy2]
        · exact hrec hr

theorem occurs_append_right {p b : Str} (a : Str) (h : Occurs p b) :
    Occurs p (a ++ b) := by
  obtain ⟨x, y, rfl⟩ := h
  exact ⟨a ++ x, y, by simp⟩

theorem replaceBraced_isLeading_c {m : Char} {o cl z : Str}
    (hm : m ≠ 'c') (ho : o = '<' :: z) :
    ∀ l, IsLeading ['c'] (replaceBraced m o cl l) → IsLeading ['c'] l := by
  intro l
  match l with
  | [] => rw [RB_nil]; exact fun h => h
  | [c] => rw [RB_single]; exact fun h => h
  | c :: b :: rest2 =>
    intro h
    by_cases hcm : c = m
    · subst hcm
      by_cases hb : b = '\x7b'
      · subst hb
        by_cases hcond : rest2.any (fun d => d = '\x7d') ∧
            rest2.takeWhile (fun d => d ≠ '\x7d') ≠ []
        · rw [RB_match _ _ _ _ hcond, ho] at h
          obtain ⟨y, hy⟩ := h
          rw [List.cons_append, List.cons_append] at hy
          injection hy with h1 _
          exact absurd h1 (by decide)
        · rw [RB_nomatch _ _ _ _ hcond] at h
          obtain ⟨y, hy⟩ := h
          rw [List.cons_append] at hy
          injection hy with h1 _
          exact absurd h1 (by simpa using hm)
      · rw [RB_marker_nobrace _ _ _ _ hb] at h
        obtain ⟨y, hy⟩ := h
        rw [List.cons_append] at hy
        injection hy with h1 _
        exact absurd h1 (by simpa using hm)
    · rw [RB_keep _ _ _ _ hcm] at h
      obtain ⟨y, hy⟩ := h
      rw [List.cons_append] at hy
      injection hy with h1 _
      exact ⟨b :: rest2, by rw [h1]; rfl⟩

theorem replaceBraced_isLeading_sc {m : Char} {o cl z : Str}
    (hms : m ≠ 's') (hmc : m ≠ 'c') (ho : o = '<' :: z) :
    ∀ l, IsLeading ['s', 'c'] (replaceBraced m o cl l) → IsLeading ['s', 'c'] l := by
  intro l
  match l with
  | [] => rw [RB_nil]; exact fun h => h
  | [c] => rw [RB_single]; exact fun h => h
  | c :: b :: rest2 =>
    intro h
    by_cases hcm : c = m
    · subst hcm
      by_cases hb : b = '\x7b'
      · subst hb
        by_cases hcond : rest2.any (fun d => d = '\x7d') ∧
            rest2.takeWhile (fun d => d ≠ '\x7d') ≠ []
        · rw [RB_match _ _ _ _ hcond, ho] at h
          obtain ⟨y, hy⟩ := h
          rw [List.cons_append, List.cons_append] at hy
          injection hy with h1 _
          exact absurd h1 (by decide)
        · rw [RB_nomatch _ _ _ _ hcond] at h
          obtain ⟨y, hy⟩ := h
          rw [List.cons_append] at hy
          injection hy with h1 _
          exact absurd h1 (by simpa using hms)
      · rw [RB_marker_nobrace _ _ _ _ hb] at h
        obtain ⟨y, hy⟩ := h
        rw [List.cons_append] at hy
        injection hy with h1 _
        exact absurd h1 (by simpa using hms)
    · rw [RB_keep _ _ _ _ hcm] at h
      obtain ⟨y, hy⟩ := h
      rw [List.cons_append] at hy
      injection hy with h1 h2
      have hsub : IsLeading ['c'] (replaceBraced m o cl (b :: rest2)) := ⟨y, h2⟩
      obtain ⟨y2, hy2⟩ := replaceBraced_isLeading_c hmc ho (b :: rest2) hsub
      exact ⟨y2, by rw [h1, hy2]; rfl⟩

theorem replaceBraced_preserves_noSC {m : Char} {o cl z w : Str}
    (hmlt : m ≠ '<') (hms : m ≠ 's') (hmc : m ≠ 'c')
    (ho : o = '<' :: z) (hcl : cl = '<' :: w)
    (hoNo : ¬ Occurs scPat o)
    (hoE1 : ¬ ∃ x, o = x ++ ['<']) (hoE2 : ¬ ∃ x, o = x ++ ['<', 's'])
    (hclNo : ¬ Occurs scPat cl)
    (hclE1 : ¬ ∃ x, cl = x ++ ['<']) (hclE2 : ¬ ∃ x, cl = x ++ ['<', 's']) :
    ∀ (n : Nat) (l : Str), l.length ≤ n → ¬ Occurs scPat l →
      ¬ Occurs scPat (replaceBraced m o cl l) := by
  intro n
  induction n with
  | zero =>
    intro l hlen _
    have hnil : l = [] := List.length_eq_zero.mp (by omega)
    subst hnil
    rw [RB_nil]
    intro h
    have := occurs_length h
    simp [scPat] at this
  | succ n ih =>
    intro l hlen hno
    match l with
    | [] =>
      rw [RB_nil]
      intro h
      have := occurs_length h
      simp [scPat] at this
    | [c] =>
      rw [RB_single]
      intro h
      have := occurs_length h
      simp [scPat] at this
    | c :: b :: rest2 =>
      have hlen2 : rest2.length ≤ n := by
        simp only [List.length_cons] at hlen
        omega
      have hlen1 : (b :: rest2).length ≤ n := by
        simp only [List.length_cons] at hlen ⊢
        omega
      have hsub1 : ¬ Occurs scPat (b :: rest2) := fun hq => hno (occurs_cons_intro c hq)
      by_cases hcm : c = m
      · subst hcm
        by_cases hb : b = '\x7b'
        · subst hb
          by_cases hcond : rest2.any (fun d => d = '\x7d') ∧
              rest2.takeWhile (fun d => d ≠ '\x7d') ≠ []
          · rw [RB_match _ _ _ _ hcond]
            have hcontent : ¬ Occurs scPat (rest2.takeWhile (fun d => d ≠ '\x7d')) := by
              intro hq
              apply hno
              apply occurs_cons_intro c
              apply occurs_cons_intro '\x7b'
              have h2 := occurs_append_left (rest2.dropWhile (fun d => d ≠ '\x7d')) hq
              rw [List.takeWhile_append_dropWhile] at h2
              exact h2
            have hrest4len : ((rest2.dropWhile (fun d => d ≠ '\x7d')).drop 1).length ≤ n := by
              have h1 : ((rest2.dropWhile (fun d => d ≠ '\x7d')).drop 1).length
                  ≤ (rest2.dropWhile (fun d => d ≠ '\x7d')).length := by
                simp [List.length_drop]
              have h2 : (rest2.dropWhile (fun d => d ≠ '\x7d')).length ≤ rest2.length :=
                (List.dropWhile_sublist _).length_le
              omega
            have hsub4 : ¬ Occurs scPat ((rest2.dropWhile (fun d => d ≠ '\x7d')).drop 1) := by
              intro hq
              apply hno
              apply occurs_cons_intro c
              apply occurs_cons_intro '\x7b'
              have h2 := occurs_append_right
                (rest2.takeWhile (fun d => d ≠ '\x7d') ++
                  (rest2.dropWhile (fun d => d ≠ '\x7d')).take 1) hq
              rw [List.append_assoc, List.take_append_drop,
                List.takeWhile_append_dropWhile] at h2
              exact h2
            have hrec : ¬ Occurs scPat
                (replaceBraced c o cl ((rest2.dropWhile (fun d => d ≠ '\x7d')).drop 1)) :=
              ih _ hrest4len hsub4
            intro hocc
            rw [List.append_assoc, List.append_assoc] at hocc
            rcases occurs_append_cases scPat o _ hocc
              with hA | hB | ⟨p1, p2, hsplit, hne1, hne2, hend, hlead⟩
            · exact hoNo hA
            · rcases occurs_append_cases scPat (rest2.takeWhile (fun d => d ≠ '\x7d')) _ hB
                with hC | hD | ⟨p1, p2, hsplit, hne1, hne2, hend, hlead⟩
              · exact hcontent hC
              · rcases occurs_append_cases scPat cl _ hD
                  with hE | hF | ⟨p1, p2, hsplit, hne1, hne2, hend, hlead⟩
                · exact hclNo hE
                · exact hrec hF
                · rcases scPat_splits hsplit.symm hne1 hne2 with ⟨e1, _⟩ | ⟨e1, _⟩
                  · subst e1
                    exact hclE1 hend
                  · subst e1
                    exact hclE2 hend
              · rcases scPat_splits hsplit.symm hne1 hne2 with ⟨_, e2⟩ | ⟨_, e2⟩ <;>
                  · subst e2
                    obtain ⟨y, hy⟩ := hlead
                    rw [hcl, List.cons_append, List.cons_append] at hy
                    injection hy with h1 _
                    exact absurd h1 (by decide)
            · rcases scPat_splits hsplit.symm hne1 hne2 with ⟨e1, _⟩ | ⟨e1, _⟩
              · subst e1
                exact hoE1 hend
              · subst e1
                exact hoE2 hend
          · rw [RB_nomatch _ _ _ _ hcond]
            intro hocc
            have hrec : ¬ Occurs scPat (replaceBraced c o cl ('\x7b' :: rest2)) :=
              ih _ hlen1 hsub1
            rcases occurs_cons_elim hocc with hl | hr
            · obtain ⟨y, hy⟩ := hl
              rw [show scPat ++ y = '<' :: ('s' :: 'c' :: y) from rfl] at hy
              injection hy with h1 _
              exact absurd h1 hmlt
            · exact hrec hr
        · rw [RB_marker_nobrace _ _ _ _ hb]
          intro hocc
          have hrec : ¬ Occurs scPat (replaceBraced c o cl (b :: rest2)) := ih _ hlen1 hsub1
          rcases occurs_cons_elim hocc with hl | hr
          · obtain ⟨y, hy⟩ := hl
            rw [show scPat ++ y = '<' :: ('s' :: 'c' :: y) from rfl] at hy
            injection hy with h1 _
            exact absurd h1 hmlt
          · exact hrec hr
      · rw [RB_keep _ _ _ _ hcm]
        intro hocc
        have hrec : ¬ Occurs scPat (replaceBraced m o cl (b :: rest2)) := ih _ hlen1 hsub1
        rcases occurs_cons_elim hocc with hl | hr
        · obtain ⟨y, hy⟩ := hl
          rw [show scPat ++ y = '<' :: ('s' :: 'c' :: y) from rfl] at hy
          injection hy with h1 h2
          have hsl : IsLeading ['s', 'c'] (replaceBraced m o cl (b :: rest2)) := ⟨y, h2⟩
          obtain ⟨y2, hy2⟩ := replaceBraced_isLeading_sc hms hmc ho (b :: rest2) hsl
          apply hno
          refine ⟨[], y2, ?_⟩
          rw [List.nil_append, show scPat ++ y2 = '<' :: (['s', 'c'] ++ y2) from rfl, ← h1, ← hy2]
        · exact hrec hr

theorem lt_not_mem_escapeChar (c : Char) : '<' ∉ escapeChar c := by
  unfold escapeChar
  split_ifs with h1 h2 h3 h4
  · decide
  · decide
  · decide
  · decide
  · intro hm
    rcases List.mem_singleton.mp hm with rfl
    exact h2 rfl

theorem escapeHtml_no_lt (s : Str) : '<' ∉ escapeHtml s := by
  intro h
  rw [escapeHtml] at h
  rcases List.mem_flatten.mp h with ⟨l, hl, hm⟩
  rcases List.mem_map.mp hl with ⟨c, _, rfl⟩
  exact lt_not_mem_escapeChar c hm

theorem no_lt_no_occurs {l : Str} (h : '<' ∉ l) : ¬ Occurs scPat l := by
  rintro ⟨x, y, rfl⟩
  apply h
  rw [List.mem_append, List.mem_append]
  exact Or.inl (Or.inr (by simp [scPat]))

theorem occurs_mono_pre {p t l : Str} (h : Occurs (p ++ t) l) : Occurs p l := by
  obtain ⟨x, y, rfl⟩ := h
  exact ⟨x, t ++ y, by simp⟩

theorem replaceBraced_no_marker (m : Char) (o cl : Str) :
    ∀ l : Str, (∀ c ∈ l, c ≠ m) → replaceBraced m o cl l = l := by
  intro l
  induction l with
  | nil => intro _; exact RB_nil m o cl
  | cons c rest ih =>
    intro h
    rw [RB_keep _ _ _ _ (h c (by simp)), ih (fun d hd => h d (by simp [hd]))]

theorem replaceSingle_no_marker (m : Char) (o cl : Str) :
    ∀ l : Str, (∀ c ∈ l, c ≠ m) → replaceSingle m o cl l = l := by
  intro l
  induction l with
  | nil => intro _; rfl
  | cons c rest ih =>
    intro h
    cases rest with
    | nil => rfl
    | cons d rest2 =>
      simp only [replaceSingle, if_neg (h c (by simp))]
      rw [ih (fun e he => h e (by simp [he]))]

/-- No occurrence of `"<sc"` survives the whole transformer. -/
theorem parseSubscriptSuperscript_no_sc (s : Str) :
    ¬ Occurs scPat (parseSubscriptSuperscript s) := by
  have hsupHead : supOpen = '<' :: "span class=\"superscript\">".toList := by decide
  have hsubHead : subOpen = '<' :: "span class=\"subscript\">".toList := by decide
  have hclHead : spanClose = '<' :: "/span>".toList := by decide
  have hsupNo : ¬ Occurs scPat supOpen := not_occurs_of_containsRun_false (by decide)
  have hsubNo : ¬ Occurs scPat subOpen := not_occurs_of_containsRun_false (by decide)
  have hclNo : ¬ Occurs scPat spanClose := not_occurs_of_containsRun_false (by decide)
  have hsupLast : supOpen.getLast? = some '>' := by decide
  have hsubLast : subOpen.getLast? = some '>' := by decide
  have hclLast : spanClose.getLast? = some '>' := by decide
  have hsupE1 := not_ends_single hsupLast (show '<' ≠ '>' by decide)
  have hsupE2 := not_ends_pair hsupLast '<' (show 's' ≠ '>' by decide)
  have hsubE1 := not_ends_single hsubLast (show '<' ≠ '>' by decide)
  have hsubE2 := not_ends_pair hsubLast '<' (show 's' ≠ '>' by decide)
  have hclE1 := not_ends_single hclLast (show '<' ≠ '>' by decide)
  have hclE2 := not_ends_pair hclLast '<' (show 's' ≠ '>' by decide)
  have h0 : ¬ Occurs scPat (escapeHtml s) := no_lt_no_occurs (escapeHtml_no_lt s)
  have h1 := @replaceBraced_preserves_noSC '^' supOpen spanClose _ _
    (by decide) (by decide) (by decide)
    hsupHead hclHead hsupNo hsupE1 hsupE2 hclNo hclE1 hclE2
    (escapeHtml s).length _ (Nat.le_refl _) h0
  have h2 := @replaceSingle_preserves_noSC '^' supOpen spanClose _ _
    (by decide) (by decide) (by decide)
    hsupHead hclHead hsupNo hsupE1 hsupE2 hclNo hclE1 hclE2
    _ _ (Nat.le_refl _) h1
  have h3 := @replaceBraced_preserves_noSC '_' subOpen spanClose _ _
    (by decide) (by decide) (by decide)
    hsubHead hclHead hsubNo hsubE1 hsubE2 hclNo hclE1 hclE2
    _ _ (Nat.le_refl _) h2
  have h4 := @replaceSingle_preserves_noSC '_' subOpen spanClose _ _
    (by decide) (by decide) (by decide)
    hsubHead hclHead hsubNo hsubE1 hsubE2 hclNo hclE1 hclE2
    _ _ (Nat.le_refl _) h3
  exact h4

/-- C8: the transformer escapes first and only then substitutes —
`"x^2"` renders with a superscript-wrapped `"2"`, `"x^{-5}"` with a
superscript-wrapped `"-5"`, and for **every** input string the output
never contains the substring `"<script>"` (any markup-like characters
of the input were escaped before the substitutions ran). -/
theorem parseSubscriptSuperscript_safe :
    parseSubscriptSuperscript "x^2".toList
      = "x".toList ++ supOpen ++ "2".toList ++ spanClose ∧
    parseSubscriptSuperscript "x^\x7b-5\x7d".toList
      = "x".toList ++ supOpen ++ "-5".toList ++ spanClose ∧
    ∀ s : Str, containsRun "<script>".toList (parseSubscriptSuperscript s) = false := by
  refine ⟨?_, ?_, ?_⟩
  · show replaceSingle '_' subOpen spanClose
        (replaceBraced '_' subOpen spanClose
          (replaceSingle '^' supOpen spanClose
            (replaceBraced '^' supOpen spanClose (escapeHtml "x^2".toList)))) = _
    have e0 : escapeHtml "x^2".toList = 'x' :: '^' :: '2' :: [] := by decide
    rw [e0, RB_keep _ _ _ _ (by decide), RB_marker_nobrace _ _ _ _ (by decide), RB_single]
    have e2 : replaceSingle '^' supOpen spanClose ('x' :: '^' :: ['2'])
        = "x".toList ++ supOpen ++ "2".toList ++ spanClose := by decide
    rw [e2, replaceBraced_no_marker _ _ _ _ (by decide),
      replaceSingle_no_marker _ _ _ _ (by decide)]
  · show replaceSingle '_' subOpen spanClose
        (replaceBraced '_' subOpen spanClose
          (replaceSingle '^' supOpen spanClose
            (replaceBraced '^' supOpen spanClose (escapeHtml "x^\x7b-5\x7d".toList)))) = _
    have e0 : escapeHtml "x^\x7b-5\x7d".toList
        = 'x' :: '^' :: '\x7b' :: '-' :: '5' :: '\x7d' :: [] := by decide
    rw [e0, RB_keep _ _ _ _ (by decide), RB_match _ _ _ _ (by decide)]
    rw [show List.drop 1 (List.dropWhile (fun d => d ≠ '\x7d') ('-' :: '5' :: '\x7d' :: []))
        = ([] : Str) from rfl]
    rw [RB_nil]
    rw [show List.takeWhile (fun d => d ≠ '\x7d') ('-' :: '5' :: '\x7d' :: [])
        = ('-' :: '5' :: [] : Str) from rfl]
    have e2 : replaceSingle '^' supOpen spanClose
          ('x' :: (supOpen ++ ('-' :: '5' :: []) ++ spanClose ++ []))
        = 'x' :: (supOpen ++ ('-' :: '5' :: []) ++ spanClose ++ []) := by decide
    rw [e2, replaceBraced_no_marker _ _ _ _ (by decide),
      replaceSingle_no_marker _ _ _ _ (by decide)]
    decide
  · intro s
    rw [← Bool.not_eq_true]
    intro htrue
    have hocc : Occurs "<script>".toList (parseSubscriptSuperscript s) :=
      (containsRun_iff _ _).mp htrue
    have hsc : Occurs scPat (parseSubscriptSuperscript s) := by
      have : "<script>".toList = scPat ++ "ript>".toList := by decide
      rw [this] at hocc
      exact occurs_mono_pre hocc
    exact parseSubscriptSuperscript_no_sc s hsc

end WordList
